import Mathlib

set_option maxRecDepth 100000

/-!
Shallow embedding of the password-hashing utilities of
`src/utils/database.ts` (functions `generateSalt`, `hashPassword`,
`createPasswordHash`, `verifyPassword`, `constantTimeCompare`).

Modelling conventions:
* A JavaScript string is a list of UTF-16 code units (`JSStr := List Nat`);
  this is faithful to the ECMAScript string model, where a string may
  contain unpaired surrogates.
* `TextEncoder.encode` is modelled by `textEncode`, following the WHATWG
  Encoding standard: code units are converted to Unicode scalar values
  (pairing surrogates, replacing unpaired surrogates with U+FFFD) and then
  UTF-8 encoded.
* `crypto.getRandomValues` is modelled by explicit state passing: the drawn
  random bytes are an explicit argument of `generateSalt` and
  `createPasswordHash`.
* `crypto.subtle.deriveBits` with algorithm PBKDF2 / SHA-256 / 256 bits is
  implemented concretely (SHA-256, HMAC-SHA-256, PBKDF2), and its failure
  behaviour (WebIDL EnforceRange conversion of the iteration count, and the
  OperationError on a zero iteration count) is modelled with `Except`.
  RFC test vectors for SHA-256, HMAC-SHA-256 and PBKDF2-HMAC-SHA-256 are
  proved below by kernel evaluation to anchor the embedding.
* The `try/catch` in `verifyPassword`, which converts every thrown error to
  the return value `false`, is modelled by running the fallible body
  (`verifyPasswordE`) and mapping `Except.error` to `false`.
All machine arithmetic is on `Nat` with explicit reduction `% 2 ^ 32`.
-/

namespace CredHash

/-- A JavaScript string: a finite sequence of UTF-16 code units. -/
abbrev JSStr := List Nat

/-- Concatenation of a list of byte lists. -/
def concatAll : List (List Nat) → List Nat
  | [] => []
  | x :: xs => x ++ concatAll xs

/-! ## SHA-256 (FIPS 180-4), on byte lists -/

/-- Reduction to a 32-bit word. -/
def w32 (x : Nat) : Nat := x % 4294967296

/-- Right rotation of a 32-bit word. -/
def rotr32 (n x : Nat) : Nat := w32 ((x >>> n) ||| (x <<< (32 - n)))

/-- SHA-256 big sigma 0. -/
def bSig0 (x : Nat) : Nat := rotr32 2 x ^^^ rotr32 13 x ^^^ rotr32 22 x

/-- SHA-256 big sigma 1. -/
def bSig1 (x : Nat) : Nat := rotr32 6 x ^^^ rotr32 11 x ^^^ rotr32 25 x

/-- SHA-256 small sigma 0. -/
def sSig0 (x : Nat) : Nat := rotr32 7 x ^^^ rotr32 18 x ^^^ (x >>> 3)

/-- SHA-256 small sigma 1. -/
def sSig1 (x : Nat) : Nat := rotr32 17 x ^^^ rotr32 19 x ^^^ (x >>> 10)

/-- SHA-256 choice function. -/
def chFn (x y z : Nat) : Nat := (x &&& y) ^^^ ((x ^^^ 4294967295) &&& z)

/-- SHA-256 majority function. -/
def majFn (x y z : Nat) : Nat := (x &&& y) ^^^ (x &&& z) ^^^ (y &&& z)

/-- SHA-256 round constants (FIPS 180-4 section 4.2.2, written in
decimal). -/
def K256 : List Nat :=
  [1116352408, 1899447441, 3049323471, 3921009573, 961987163,
   1508970993, 2453635748, 2870763221, 3624381080, 310598401,
   607225278, 1426881987, 1925078388, 2162078206, 2614888103,
   3248222580, 3835390401, 4022224774, 264347078, 604807628,
   770255983, 1249150122, 1555081692, 1996064986, 2554220882,
   2821834349, 2952996808, 3210313671, 3336571891, 3584528711,
   113926993, 338241895, 666307205, 773529912, 1294757372,
   1396182291, 1695183700, 1986661051, 2177026350, 2456956037,
   2730485921, 2820302411, 3259730800, 3345764771, 3516065817,
   3600352804, 4094571909, 275423344, 430227734, 506948616,
   659060556, 883997877, 958139571, 1322822218, 1537002063,
   1747873779, 1955562222, 2024104815, 2227730452, 2361852424,
   2428436474, 2756734187, 3204031479, 3329325298]

/-- The eight 32-bit working variables of the SHA-256 compression function. -/
structure H8 where
  a : Nat
  b : Nat
  c : Nat
  d : Nat
  e : Nat
  f : Nat
  g : Nat
  h : Nat

/-- SHA-256 initial hash value (FIPS 180-4 section 5.3.3, written in
decimal). -/
def initH : H8 :=
  ⟨1779033703, 3144134277, 1013904242, 2773480762,
   1359893119, 2600822924, 528734635, 1541459225⟩

/-- Extension of the message schedule by `k` further words. -/
def extSched (ws : List Nat) : Nat → List Nat
  | 0 => ws
  | k + 1 =>
    let t := ws.length
    extSched
      (ws ++ [w32 (sSig1 (ws.getD (t - 2) 0) + ws.getD (t - 7) 0 +
                   sSig0 (ws.getD (t - 15) 0) + ws.getD (t - 16) 0)]) k

/-- Full 64-word message schedule from a 16-word block. -/
def schedule64 (block : List Nat) : List Nat := extSched block 48

/-- One round of the SHA-256 compression function; `kw` is `K[t] + W[t]` mod 2^32. -/
def roundStep (st : H8) (kw : Nat) : H8 :=
  let t1 := w32 (st.h + bSig1 st.e + chFn st.e st.f st.g + kw)
  let t2 := w32 (bSig0 st.a + majFn st.a st.b st.c)
  ⟨w32 (t1 + t2), st.a, st.b, st.c, w32 (st.d + t1), st.e, st.f, st.g⟩

/-- SHA-256 compression of one 16-word block into the chaining state. -/
def compressBlock (st : H8) (block : List Nat) : H8 :=
  let kws := List.zipWith (fun k w => w32 (k + w)) K256 (schedule64 block)
  let r := kws.foldl roundStep st
  ⟨w32 (st.a + r.a), w32 (st.b + r.b), w32 (st.c + r.c), w32 (st.d + r.d),
   w32 (st.e + r.e), w32 (st.f + r.f), w32 (st.g + r.g), w32 (st.h + r.h)⟩

/-- Big-endian 32-bit words from a byte list (groups of four bytes). -/
def bytesToWords : List Nat → List Nat
  | a :: b :: c :: d :: rest => (((a * 256 + b) * 256 + c) * 256 + d) :: bytesToWords rest
  | _ => []

/-- Big-endian 8-byte encoding of a 64-bit length. -/
def beBytes8 (n : Nat) : List Nat :=
  [n / 72057594037927936 % 256, n / 281474976710656 % 256, n / 1099511627776 % 256,
   n / 4294967296 % 256, n / 16777216 % 256, n / 65536 % 256, n / 256 % 256, n % 256]

/-- SHA-256 padding: append 0x80, zero bytes, and the 64-bit bit length,
reaching a multiple of 64 bytes. -/
def padMessage (msg : List Nat) : List Nat :=
  msg ++ 128 :: (List.replicate ((64 - (msg.length + 9) % 64) % 64) 0 ++ beBytes8 (msg.length * 8))

/-- Folding the compression function over the message schedule words, sixteen
words (one block) at a time. The padded message always has a multiple of
sixteen words. -/
def processWords (st : H8) : List Nat → H8
  | w0 :: w1 :: w2 :: w3 :: w4 :: w5 :: w6 :: w7 ::
    w8 :: w9 :: w10 :: w11 :: w12 :: w13 :: w14 :: w15 :: rest =>
    processWords (compressBlock st [w0, w1, w2, w3, w4, w5, w6, w7,
                                    w8, w9, w10, w11, w12, w13, w14, w15]) rest
  | _ => st

/-- Big-endian bytes of a 32-bit word. -/
def wordToBytes (w : Nat) : List Nat :=
  [w >>> 24 % 256, w >>> 16 % 256, w >>> 8 % 256, w % 256]

/-- SHA-256 digest (32 bytes) of a byte list. -/
def sha256 (msg : List Nat) : List Nat :=
  let f := processWords initH (bytesToWords (padMessage msg))
  wordToBytes f.a ++ wordToBytes f.b ++ wordToBytes f.c ++ wordToBytes f.d ++
  wordToBytes f.e ++ wordToBytes f.f ++ wordToBytes f.g ++ wordToBytes f.h

/-! ## HMAC-SHA-256 and PBKDF2 (RFC 2104, RFC 2898) -/

/-- HMAC-SHA-256 of a message under a key; block size 64 bytes, keys longer
than one block are first hashed. -/
def hmacSha256 (key msg : List Nat) : List Nat :=
  let k0 := if 64 < key.length then sha256 key else key
  let kp := k0 ++ List.replicate (64 - k0.length) 0
  sha256 ((kp.map (fun b => b ^^^ 92)) ++ sha256 ((kp.map (fun b => b ^^^ 54)) ++ msg))

/-- Iterated xor accumulation of the PBKDF2 U-chain: `k` further HMAC
applications folded into the running block `t`. -/
def pbkdf2Loop (pw : List Nat) : Nat → List Nat → List Nat → List Nat
  | 0, _, t => t
  | k + 1, u, t =>
    let u2 := hmacSha256 pw u
    pbkdf2Loop pw k u2 (List.zipWith Nat.xor t u2)

/-- PBKDF2-HMAC-SHA-256 with a 256-bit derived key (exactly one output
block, block index 1). -/
def pbkdf2Sha256 (pw salt : List Nat) (c : Nat) : List Nat :=
  let u1 := hmacSha256 pw (salt ++ [0, 0, 0, 1])
  pbkdf2Loop pw (c - 1) u1 u1

/-! ## Number-to-string conversions (JavaScript `Number.prototype.toString`) -/

/-- Code unit of a single digit in bases up to 16: `0`-`9` then `a`-`f`,
as produced by `Number.prototype.toString`. -/
def digitCU (n : Nat) : Nat := if n < 10 then 48 + n else 87 + n

/-- Digits of `n` in base `base`, least significant first; bases below two
do not occur (only 10 and 16 are used) and give a single digit. -/
def digitsRev (base n : Nat) : List Nat :=
  if h : base ≤ 1 ∨ n < base then [digitCU (n % base)]
  else digitCU (n % base) :: digitsRev base (n / base)
termination_by n
decreasing_by
  rw [not_or] at h
  exact Nat.div_lt_self (by omega) (by omega)

/-- JavaScript `n.toString(16)` for a nonnegative integer `n`. -/
def natToHex (n : Nat) : JSStr := (digitsRev 16 n).reverse

/-- JavaScript decimal rendering of a nonnegative integer (template-literal
interpolation of a number). -/
def natToDec (n : Nat) : JSStr := (digitsRev 10 n).reverse

/-- JavaScript `byte.toString(16).padStart(2, 0-character)`, as used for both
salt bytes and digest bytes in the source. -/
def byteToHex (b : Nat) : JSStr :=
  let d := natToHex b
  if d.length < 2 then List.replicate (2 - d.length) 48 ++ d else d

/-- Hex encoding of a byte list: the `map`-and-`join` of `byteToHex`. -/
def hexEncode (bytes : List Nat) : JSStr := concatAll (bytes.map byteToHex)

/-! ## TextEncoder (WHATWG Encoding standard) -/

/-- Conversion of a UTF-16 code unit sequence to Unicode scalar values:
surrogate pairs are combined, unpaired surrogates become U+FFFD. -/
def toScalars : List Nat → List Nat
  | [] => []
  | [u] => if 55296 ≤ u ∧ u ≤ 57343 then [65533] else [u]
  | u :: v :: rest =>
    if 55296 ≤ u ∧ u ≤ 56319 then
      if 56320 ≤ v ∧ v ≤ 57343 then
        (65536 + (u - 55296) * 1024 + (v - 56320)) :: toScalars rest
      else
        65533 :: toScalars (v :: rest)
    else if 56320 ≤ u ∧ u ≤ 57343 then
      65533 :: toScalars (v :: rest)
    else
      u :: toScalars (v :: rest)

/-- UTF-8 encoding of one Unicode scalar value. -/
def utf8Bytes (s : Nat) : List Nat :=
  if s < 128 then [s]
  else if s < 2048 then [192 + s / 64, 128 + s % 64]
  else if s < 65536 then [224 + s / 4096, 128 + s / 64 % 64, 128 + s % 64]
  else [240 + s / 262144, 128 + s / 4096 % 64, 128 + s / 64 % 64, 128 + s % 64]

/-- Model of `new TextEncoder().encode(s)`. -/
def textEncode (s : JSStr) : List Nat := concatAll ((toScalars s).map utf8Bytes)

/-! ## JavaScript `parseInt` -/

/-- ECMAScript white space and line terminator code units, skipped by
`parseInt`. -/
def isWsCU (c : Nat) : Bool :=
  c == 9 || c == 10 || c == 11 || c == 12 || c == 13 || c == 32 || c == 160 ||
  c == 5760 || (8192 ≤ c && c ≤ 8202) || c == 8232 || c == 8233 || c == 8239 ||
  c == 8287 || c == 12288 || c == 65279

/-- Value of a digit code unit under a radix (digits, then lowercase and
uppercase letters), or `none` when the code unit is not a digit of that
radix. -/
def digitValR (radix c : Nat) : Option Nat :=
  if 48 ≤ c ∧ c ≤ 57 then (if c - 48 < radix then some (c - 48) else none)
  else if 97 ≤ c ∧ c ≤ 122 then (if c - 87 < radix then some (c - 87) else none)
  else if 65 ≤ c ∧ c ≤ 90 then (if c - 55 < radix then some (c - 55) else none)
  else none

/-- Longest digit run at the head of the string, read as a base-`radix`
numeral; `none` when there is no leading digit (`parseInt` yields NaN). -/
def parseDigits (radix : Nat) (l : JSStr) : Option Nat :=
  let ds := l.takeWhile (fun c => (digitValR radix c).isSome)
  if ds.isEmpty then none
  else some (ds.foldl (fun acc c => acc * radix + (digitValR radix c).getD 0) 0)

/-- Unsigned part of `parseInt` with no radix argument: a `0x` or `0X`
leading pattern selects base 16, otherwise base 10. -/
def parseUnsignedJS (l : JSStr) : Option Nat :=
  match l with
  | a :: x :: r =>
    if a = 48 ∧ (x = 120 ∨ x = 88) then parseDigits 16 r else parseDigits 10 (a :: x :: r)
  | _ => parseDigits 10 l

/-- Model of JavaScript `parseInt(s)`: skip white space, read an optional
sign, then the numeral; `none` models the NaN result. -/
def parseIntJS (s : JSStr) : Option Int :=
  match s.dropWhile isWsCU with
  | [] => none
  | c :: r =>
    if c = 43 then (parseUnsignedJS r).map (fun v => (v : Int))
    else if c = 45 then (parseUnsignedJS r).map (fun v => -(v : Int))
    else (parseUnsignedJS (c :: r)).map (fun v => (v : Int))

/-! ## String splitting on the dollar delimiter -/

/-- JavaScript `s.split(36-code-unit-string)`: fields between occurrences of
the delimiter, with empty fields kept (the result of `split` on the empty
string is one empty field). -/
def splitOnDollar : JSStr → List JSStr
  | [] => [[]]
  | c :: rest =>
    if c = 36 then [] :: splitOnDollar rest
    else
      match splitOnDollar rest with
      | [] => [[c]]
      | s :: ss => (c :: s) :: ss

/-! ## The credential hashing module (`src/utils/database.ts`) -/

/-- Errors thrown by the Web Crypto layer and caught by `verifyPassword`:
`typeError` models the WebIDL EnforceRange rejection of an iteration count
that is NaN, negative, or at least 2^32; `operationError` models the
PBKDF2 rejection of a zero iteration count. -/
inductive JsError
  | typeError
  | operationError

/-- Source `generateSalt`: hex encoding of bytes drawn from
`crypto.getRandomValues`; the random draw is passed explicitly. -/
def generateSalt (randomBytes : List Nat) : JSStr := hexEncode randomBytes

/-- Source `hashPassword` on an in-range iteration count: UTF-8 encode the
password and the salt string, derive 256 PBKDF2 bits, hex encode. -/
def hashPassword (password salt : JSStr) (iterations : Nat) : JSStr :=
  hexEncode (pbkdf2Sha256 (textEncode password) (textEncode salt) iterations)

/-- Source `hashPassword` as called with an arbitrary numeric iteration
count: `crypto.subtle.deriveBits` rejects counts outside 1..2^32-1. -/
def hashPasswordE (password salt : JSStr) (iterations : Int) : Except JsError JSStr :=
  if iterations < 0 ∨ 4294967296 ≤ iterations then Except.error JsError.typeError
  else if iterations = 0 then Except.error JsError.operationError
  else Except.ok (hashPassword password salt iterations.toNat)

/-- Code units of the algorithm tag `pbkdf2`. -/
def pbkdf2Tag : JSStr := [112, 98, 107, 100, 102, 50]

/-- The dollar-delimited record template of `createPasswordHash`. -/
def mkRecord (iterations : Nat) (salt digest : JSStr) : JSStr :=
  36 :: (pbkdf2Tag ++ 36 :: (natToDec iterations ++ 36 :: (salt ++ 36 :: digest)))

/-- Source `createPasswordHash`: fresh salt, fixed iteration count 100000,
record template with a leading delimiter. -/
def createPasswordHash (password : JSStr) (randomBytes : List Nat) : JSStr :=
  let salt := generateSalt randomBytes
  mkRecord 100000 salt (hashPassword password salt 100000)

/-- Source `constantTimeCompare`: length check, then an or-accumulated xor
over all positions. -/
def constantTimeCompare (a b : JSStr) : Bool :=
  if a.length = b.length then
    ((List.zipWith Nat.xor a b).foldl (fun r x => r ||| x) 0) == 0
  else false

/-- Body of `verifyPassword` before the enclosing `try/catch`: split the
stored record, require five fields with tag `pbkdf2`, parse the iteration
count, re-derive, compare. A NaN iteration count reaches `deriveBits` and
throws. -/
def verifyPasswordE (password stored : JSStr) : Except JsError Bool :=
  match splitOnDollar stored with
  | [_, p1, p2, p3, p4] =>
    if p1 = pbkdf2Tag then
      match parseIntJS p2 with
      | none => Except.error JsError.typeError
      | some i =>
        match hashPasswordE password p3 i with
        | Except.error e => Except.error e
        | Except.ok computed => Except.ok (constantTimeCompare computed p4)
    else Except.ok false
  | _ => Except.ok false

/-- Source `verifyPassword`: the `try/catch` converts every thrown error
into the return value `false`. -/
def verifyPassword (password stored : JSStr) : Bool :=
  match verifyPasswordE password stored with
  | Except.ok b => b
  | Except.error _ => false

/-- Lowercase hexadecimal digit code units. -/
def isLowerHexCU (c : Nat) : Bool := (48 ≤ c && c ≤ 57) || (97 ≤ c && c ≤ 102)

/-- Malformed stored record in the sense of the spec error taxonomy: the
string does not split into the five parts the code requires (a leading
empty field plus four data fields), or the algorithm tag differs from
`pbkdf2`, or the iterations field does not parse to an integer. -/
def malformedRecord (r : JSStr) : Bool :=
  match splitOnDollar r with
  | [_, p1, p2, _, _] => p1 ≠ pbkdf2Tag || (parseIntJS p2).isNone
  | _ => true

/-! ## Anchoring the crypto core: standard test vectors, by kernel evaluation -/

/-- FIPS 180-4 test vector: SHA-256 of the three bytes `abc`. -/
theorem sha256_abc_vector :
    sha256 [97, 98, 99] =
      [186, 120, 22, 191, 143, 1, 207, 234, 65, 65, 64, 222, 93,
       174, 34, 35, 176, 3, 97, 163, 150, 23, 122, 156, 180, 16,
       255, 97, 242, 0, 21, 173] := by
  decide

/-- SHA-256 of the empty message. -/
theorem sha256_empty_vector :
    sha256 [] =
      [227, 176, 196, 66, 152, 252, 28, 20, 154, 251, 244, 200, 153,
       111, 185, 36, 39, 174, 65, 228, 100, 155, 147, 76, 164, 149,
       153, 27, 120, 82, 184, 85] := by
  decide

/-- RFC 4231 test case 1: HMAC-SHA-256 with a twenty-byte key of 0x0b and
the message `Hi There`. -/
theorem hmac_rfc4231_vector :
    hmacSha256 (List.replicate 20 11) [72, 105, 32, 84, 104, 101, 114, 101] =
      [176, 52, 76, 97, 216, 219, 56, 83, 92, 168, 175, 206, 175,
       11, 241, 43, 136, 29, 194, 0, 201, 131, 61, 167, 38, 233,
       55, 108, 46, 50, 207, 247] := by
  decide

/-- RFC 6070-style PBKDF2-HMAC-SHA-256 vector: password `password`, salt
`salt`, one iteration, 256-bit key. -/
theorem pbkdf2_c1_vector :
    pbkdf2Sha256 [112, 97, 115, 115, 119, 111, 114, 100] [115, 97, 108, 116] 1 =
      [18, 15, 182, 207, 252, 248, 179, 44, 67, 231, 34, 82, 86,
       196, 248, 55, 168, 101, 72, 201, 44, 204, 53, 72, 8, 5,
       152, 124, 183, 11, 225, 123] := by
  decide

/-- PBKDF2-HMAC-SHA-256 vector with two iterations. -/
theorem pbkdf2_c2_vector :
    pbkdf2Sha256 [112, 97, 115, 115, 119, 111, 114, 100] [115, 97, 108, 116] 2 =
      [174, 77, 12, 149, 175, 107, 70, 211, 45, 10, 223, 249, 40,
       240, 109, 208, 42, 48, 63, 142, 243, 194, 81, 223, 214, 226,
       216, 90, 149, 71, 76, 67] := by
  decide

/-! ## Helper lemmas: splitting on the delimiter -/

/-- Splitting never produces an empty field list. -/
theorem splitOnDollar_ne_nil (l : JSStr) : splitOnDollar l ≠ [] := by
  induction l with
  | nil => simp [splitOnDollar]
  | cons c rest ih =>
    simp only [splitOnDollar]
    by_cases hc : c = 36
    · simp [hc]
    · simp only [hc, if_false]
      cases hs : splitOnDollar rest with
      | nil => simp
      | cons s ss => simp

/-- A leading delimiter contributes an empty first field. -/
theorem splitOnDollar_cons36 (l : JSStr) : splitOnDollar (36 :: l) = [] :: splitOnDollar l := by
  simp [splitOnDollar]

/-- A delimiter-free string is a single field. -/
theorem splitOnDollar_noDollar (xs : JSStr) (h : ∀ c ∈ xs, c ≠ 36) :
    splitOnDollar xs = [xs] := by
  induction xs with
  | nil => simp [splitOnDollar]
  | cons c rest ih =>
    have hc : c ≠ 36 := h c (by simp)
    have hrest : splitOnDollar rest = [rest] := ih (fun x hx => h x (by simp [hx]))
    simp [splitOnDollar, hc, hrest]

/-- A delimiter-free segment followed by a delimiter splits off as one
field. -/
theorem splitOnDollar_seg (xs ys : JSStr) (h : ∀ c ∈ xs, c ≠ 36) :
    splitOnDollar (xs ++ 36 :: ys) = xs :: splitOnDollar ys := by
  induction xs with
  | nil => simp [splitOnDollar_cons36]
  | cons c rest ih =>
    have hc : c ≠ 36 := h c (by simp)
    have hrest := ih (fun x hx => h x (by simp [hx]))
    simp [splitOnDollar, hc, hrest]

/-! ## Helper lemmas: constant-time comparison -/

/-- A bitwise or vanishes exactly when both arguments vanish. -/
theorem lor_eq_zero_iff (a b : Nat) : a ||| b = 0 ↔ a = 0 ∧ b = 0 := by
  constructor
  · intro h
    constructor
    · by_contra ha
      obtain ⟨i, hi⟩ := Nat.ne_zero_implies_bit_true ha
      have hbit : (a ||| b).testBit i = true := by
        simp [Nat.testBit_or, hi]
      rw [h] at hbit
      simp [Nat.zero_testBit] at hbit
    · by_contra hb
      obtain ⟨i, hi⟩ := Nat.ne_zero_implies_bit_true hb
      have hbit : (a ||| b).testBit i = true := by
        simp [Nat.testBit_or, hi]
      rw [h] at hbit
      simp [Nat.zero_testBit] at hbit
  · rintro ⟨rfl, rfl⟩
    rfl

/-- The or-accumulating fold vanishes exactly when the accumulator and all
elements vanish. -/
theorem foldl_lor_eq_zero_iff (l : List Nat) :
    ∀ acc, (l.foldl (fun r x => r ||| x) acc = 0) ↔ (acc = 0 ∧ ∀ x ∈ l, x = 0) := by
  induction l with
  | nil => simp
  | cons y ys ih =>
    intro acc
    simp only [List.foldl_cons, ih, lor_eq_zero_iff]
    constructor
    · rintro ⟨⟨h1, h2⟩, h3⟩
      refine ⟨h1, ?_⟩
      intro x hx
      rcases List.mem_cons.mp hx with rfl | hx
      · exact h2
      · exact h3 x hx
    · rintro ⟨h1, h2⟩
      exact ⟨⟨h1, h2 y (by simp)⟩, fun x hx => h2 x (by simp [hx])⟩

/-- Lists of equal length agree exactly when all pointwise xors vanish. -/
theorem zipWith_xor_eq_zero_iff (a : List Nat) :
    ∀ b : List Nat, a.length = b.length →
      ((∀ x ∈ List.zipWith Nat.xor a b, x = 0) ↔ a = b) := by
  induction a with
  | nil =>
    intro b hb
    cases b with
    | nil => simp
    | cons y ys => simp at hb
  | cons x xs ih =>
    intro b hb
    cases b with
    | nil => simp at hb
    | cons y ys =>
      simp only [List.length_cons, Nat.add_right_cancel_iff] at hb
      simp only [List.zipWith_cons_cons, List.mem_cons, List.cons.injEq]
      constructor
      · intro h
        have hx : x = y := Nat.xor_eq_zero.mp (h _ (Or.inl rfl))
        have hrest := (ih ys hb).mp (fun z hz => h z (Or.inr hz))
        exact ⟨hx, hrest⟩
      · rintro ⟨rfl, rfl⟩
        intro z hz
        rcases hz with hz | hz
        · rw [hz]
          exact Nat.xor_self x
        · exact ((ih xs hb).mpr rfl) z hz

/-- The source comparison routine decides string equality. -/
theorem constantTimeCompare_eq_beq (a b : JSStr) : constantTimeCompare a b = (a == b) := by
  by_cases hlen : a.length = b.length
  · have hiff : constantTimeCompare a b = true ↔ a = b := by
      simp only [constantTimeCompare, hlen, if_true, beq_iff_eq]
      rw [foldl_lor_eq_zero_iff]
      simp [zipWith_xor_eq_zero_iff a b hlen]
    by_cases heq : a = b
    · rw [hiff.mpr heq]
      exact (beq_iff_eq.mpr heq).symm
    · have h1 : constantTimeCompare a b = false := by
        cases hc : constantTimeCompare a b
        · rfl
        · exact absurd (hiff.mp hc) heq
      have h2 : (a == b) = false := beq_eq_false_iff_ne.mpr heq
      rw [h1, h2]
  · have hne : a ≠ b := fun h => hlen (by rw [h])
    have h2 : (a == b) = false := beq_eq_false_iff_ne.mpr hne
    simp [constantTimeCompare, hlen, h2]

/-! ## Helper lemmas: digit strings -/

/-- Unfolding of `digitsRev` below the base. -/
theorem digitsRev_eq_of_lt (base n : Nat) (hn : n < base) :
    digitsRev base n = [digitCU n] := by
  rw [digitsRev, dif_pos (Or.inr hn), Nat.mod_eq_of_lt hn]

/-- Unfolding of `digitsRev` at or above the base. -/
theorem digitsRev_eq_of_ge (base n : Nat) (hb : 2 ≤ base) (hn : base ≤ n) :
    digitsRev base n = digitCU (n % base) :: digitsRev base (n / base) := by
  rw [digitsRev, dif_neg]
  omega

/-- Digit strings are never empty. -/
theorem digitsRev_ne_nil (base n : Nat) : digitsRev base n ≠ [] := by
  rw [digitsRev]
  split <;> simp

/-- Hexadecimal digit code units satisfy the lowercase-hex predicate. -/
theorem isLowerHexCU_of_digitCU (m : Nat) (hm : m < 16) : isLowerHexCU (digitCU m) = true := by
  simp only [digitCU, isLowerHexCU]
  split <;> simp <;> omega

/-- All code units of a base-16 digit string are lowercase hex. -/
theorem digitsRev16_mem_hex (n : Nat) : ∀ c ∈ digitsRev 16 n, isLowerHexCU c = true := by
  induction n using Nat.strong_induction_on with
  | _ n ih =>
    by_cases hn : n < 16
    · rw [digitsRev_eq_of_lt 16 n hn]
      intro c hc
      rw [List.mem_singleton] at hc
      subst hc
      exact isLowerHexCU_of_digitCU n hn
    · rw [digitsRev_eq_of_ge 16 n (by omega) (by omega)]
      intro c hc
      rcases List.mem_cons.mp hc with rfl | hc
      · exact isLowerHexCU_of_digitCU _ (Nat.mod_lt n (by omega))
      · exact ih (n / 16) (Nat.div_lt_self (by omega) (by omega)) c hc

/-- All code units of a base-10 digit string are decimal digits. -/
theorem digitsRev10_mem_dec (n : Nat) : ∀ c ∈ digitsRev 10 n, 48 ≤ c ∧ c ≤ 57 := by
  induction n using Nat.strong_induction_on with
  | _ n ih =>
    by_cases hn : n < 10
    · rw [digitsRev_eq_of_lt 10 n hn]
      intro c hc
      rw [List.mem_singleton] at hc
      subst hc
      simp only [digitCU]
      rw [if_pos hn]
      omega
    · rw [digitsRev_eq_of_ge 10 n (by omega) (by omega)]
      intro c hc
      rcases List.mem_cons.mp hc with rfl | hc
      · have : n % 10 < 10 := Nat.mod_lt n (by omega)
        simp only [digitCU]
        rw [if_pos (by omega)]
        omega
      · exact ih (n / 10) (Nat.div_lt_self (by omega) (by omega)) c hc

/-- All code units of a decimal rendering are decimal digits. -/
theorem natToDec_mem (n : Nat) : ∀ c ∈ natToDec n, 48 ≤ c ∧ c ≤ 57 := by
  intro c hc
  rw [natToDec, List.mem_reverse] at hc
  exact digitsRev10_mem_dec n c hc

/-- Decimal renderings are nonempty. -/
theorem natToDec_ne_nil (n : Nat) : natToDec n ≠ [] := by
  rw [natToDec]
  intro h
  exact digitsRev_ne_nil 10 n (by simpa using h)

/-- Lowercase hex code units are not the delimiter code unit 36. -/
theorem ne36_of_hex (c : Nat) (h : isLowerHexCU c = true) : c ≠ 36 := by
  simp only [isLowerHexCU] at h
  rcases Bool.or_eq_true_iff.mp h with h | h <;>
    rcases Bool.and_eq_true_iff.mp h with ⟨h1, h2⟩ <;>
    simp only [decide_eq_true_eq] at h1 h2 <;> omega

/-- Decimal digit code units are not the delimiter code unit 36. -/
theorem natToDec_ne36 (n : Nat) : ∀ c ∈ natToDec n, c ≠ 36 := by
  intro c hc
  have := natToDec_mem n c hc
  omega

/-- All code units of `natToHex` are lowercase hex. -/
theorem natToHex_mem_hex (n : Nat) : ∀ c ∈ natToHex n, isLowerHexCU c = true := by
  intro c hc
  rw [natToHex, List.mem_reverse] at hc
  exact digitsRev16_mem_hex n c hc

/-- All code units of `byteToHex` are lowercase hex (the padding character
48 included). -/
theorem byteToHex_mem_hex (b : Nat) : ∀ c ∈ byteToHex b, isLowerHexCU c = true := by
  intro c hc
  simp only [byteToHex] at hc
  split at hc
  · rcases List.mem_append.mp hc with hc | hc
    · have := List.eq_of_mem_replicate hc
      subst this
      simp [isLowerHexCU]
    · exact natToHex_mem_hex b c hc
  · exact natToHex_mem_hex b c hc

/-- Members of a concatenation come from some member list. -/
theorem mem_concatAll (ls : List (List Nat)) (x : Nat) (hx : x ∈ concatAll ls) :
    ∃ l ∈ ls, x ∈ l := by
  induction ls with
  | nil => simp [concatAll] at hx
  | cons l ls ih =>
    simp only [concatAll, List.mem_append] at hx
    rcases hx with hx | hx
    · exact ⟨l, by simp, hx⟩
    · obtain ⟨l2, hl2, hxl2⟩ := ih hx
      exact ⟨l2, by simp [hl2], hxl2⟩

/-- All code units of a hex encoding are lowercase hex. -/
theorem hexEncode_mem_hex (bs : List Nat) : ∀ c ∈ hexEncode bs, isLowerHexCU c = true := by
  intro c hc
  obtain ⟨l, hl, hcl⟩ := mem_concatAll _ c hc
  obtain ⟨b, _, rfl⟩ := List.mem_map.mp hl
  exact byteToHex_mem_hex b c hcl

/-- Hex encodings contain no delimiter code unit. -/
theorem hexEncode_ne36 (bs : List Nat) : ∀ c ∈ hexEncode bs, c ≠ 36 :=
  fun c hc => ne36_of_hex c (hexEncode_mem_hex bs c hc)

/-- Normal form of `byteToHex` on an actual byte: exactly two hex digits. -/
theorem byteToHex_of_lt256 (b : Nat) (hb : b < 256) :
    byteToHex b = [digitCU (b / 16), digitCU (b % 16)] := by
  by_cases h16 : b < 16
  · have h1 : natToHex b = [digitCU b] := by
      rw [natToHex, digitsRev_eq_of_lt 16 b h16]
      rfl
    have hd : b / 16 = 0 := Nat.div_eq_of_lt h16
    have hm : b % 16 = b := Nat.mod_eq_of_lt h16
    simp [byteToHex, h1, hd, hm, digitCU, List.replicate]
  · have hlt : b / 16 < 16 := by omega
    have h1 : natToHex b = [digitCU (b / 16), digitCU (b % 16)] := by
      rw [natToHex, digitsRev_eq_of_ge 16 b (by omega) (by omega),
        digitsRev_eq_of_lt 16 (b / 16) hlt]
      rfl
    simp [byteToHex, h1]

/-- Length of a hex encoding of actual bytes. -/
theorem hexEncode_length (bs : List Nat) (hb : ∀ b ∈ bs, b < 256) :
    (hexEncode bs).length = 2 * bs.length := by
  induction bs with
  | nil => rfl
  | cons b rest ih =>
    have hb2 : b < 256 := hb b (by simp)
    simp only [hexEncode, List.map_cons, concatAll, List.length_append, List.length_cons]
    rw [byteToHex_of_lt256 b hb2]
    have := ih (fun x hx => hb x (by simp [hx]))
    simp only [hexEncode] at this
    rw [this]
    simp
    omega

/-- The digit code unit map is injective below 16. -/
theorem digitCU_inj (a b : Nat) (ha : a < 16) (hb : b < 16) (h : digitCU a = digitCU b) :
    a = b := by
  simp only [digitCU] at h
  split at h <;> split at h <;> omega

/-- Hex encoding is injective on byte lists. -/
theorem hexEncode_inj (bs1 : List Nat) :
    ∀ bs2 : List Nat, (∀ b ∈ bs1, b < 256) → (∀ b ∈ bs2, b < 256) →
      hexEncode bs1 = hexEncode bs2 → bs1 = bs2 := by
  induction bs1 with
  | nil =>
    intro bs2 _ h2 h
    cases bs2 with
    | nil => rfl
    | cons b rest =>
      have hlen := congrArg List.length h
      rw [hexEncode_length _ h2] at hlen
      simp [hexEncode, concatAll] at hlen
  | cons a rest1 ih =>
    intro bs2 h1 h2 h
    cases bs2 with
    | nil =>
      have hlen := congrArg List.length h
      rw [hexEncode_length _ h1] at hlen
      simp [hexEncode, concatAll] at hlen
    | cons b rest2 =>
      have ha : a < 256 := h1 a (by simp)
      have hb : b < 256 := h2 b (by simp)
      have hform : hexEncode (a :: rest1) =
          digitCU (a / 16) :: digitCU (a % 16) :: hexEncode rest1 := by
        rw [hexEncode, List.map_cons, byteToHex_of_lt256 a ha]
        rfl
      have hform2 : hexEncode (b :: rest2) =
          digitCU (b / 16) :: digitCU (b % 16) :: hexEncode rest2 := by
        rw [hexEncode, List.map_cons, byteToHex_of_lt256 b hb]
        rfl
      rw [hform, hform2] at h
      simp only [List.cons.injEq] at h
      obtain ⟨hh1, hh2, hrest⟩ := h
      have hq : a / 16 = b / 16 := digitCU_inj _ _ (by omega) (by omega) hh1
      have hr : a % 16 = b % 16 := digitCU_inj _ _ (by omega) (by omega) hh2
      have hab : a = b := by omega
      have := ih rest2 (fun x hx => h1 x (by simp [hx])) (fun x hx => h2 x (by simp [hx])) hrest
      rw [hab, this]

/-! ## Helper lemmas: parseInt inverts the decimal rendering -/

/-- Decimal rendering below ten. -/
theorem natToDec_eq_of_lt (n : Nat) (hn : n < 10) : natToDec n = [48 + n] := by
  rw [natToDec, digitsRev_eq_of_lt 10 n hn]
  simp [digitCU, if_pos hn]

/-- Decimal rendering at or above ten: most significant digits first. -/
theorem natToDec_eq_of_ge (n : Nat) (hn : 10 ≤ n) :
    natToDec n = natToDec (n / 10) ++ [digitCU (n % 10)] := by
  rw [natToDec, natToDec, digitsRev_eq_of_ge 10 n (by omega) hn]
  simp

/-- A positive number is rendered with a nonzero leading digit. -/
theorem natToDec_head_pos (n : Nat) (hn : 0 < n) :
    ∃ c cs, natToDec n = c :: cs ∧ 49 ≤ c ∧ c ≤ 57 := by
  induction n using Nat.strong_induction_on with
  | _ n ih =>
    by_cases h10 : n < 10
    · exact ⟨48 + n, [], natToDec_eq_of_lt n h10, by omega, by omega⟩
    · obtain ⟨c, cs, hcs, hc1, hc2⟩ :=
        ih (n / 10) (Nat.div_lt_self (by omega) (by omega)) (by omega)
      exact ⟨c, cs ++ [digitCU (n % 10)], by rw [natToDec_eq_of_ge n (by omega), hcs]; rfl,
        hc1, hc2⟩

/-- Decimal digit code units are not white space. -/
theorem isWsCU_digit_false (c : Nat) (h1 : 48 ≤ c) (h2 : c ≤ 57) : isWsCU c = false := by
  simp only [isWsCU, Bool.or_eq_false_iff, beq_eq_false_iff_ne, ne_eq,
    Bool.and_eq_false_iff, decide_eq_false_iff_not]
  omega

/-- Value of a decimal digit code unit under radix ten. -/
theorem digitValR10_digit (c : Nat) (h1 : 48 ≤ c) (h2 : c ≤ 57) :
    digitValR 10 c = some (c - 48) := by
  simp only [digitValR]
  rw [if_pos ⟨h1, h2⟩, if_pos (by omega)]

/-- takeWhile keeps a list all of whose elements satisfy the predicate. -/
theorem takeWhile_eq_self_of_all (p : Nat → Bool) (l : List Nat)
    (h : ∀ x ∈ l, p x = true) : l.takeWhile p = l := by
  induction l with
  | nil => rfl
  | cons x xs ih =>
    rw [List.takeWhile_cons, h x (by simp)]
    simp [ih (fun y hy => h y (by simp [hy]))]

/-- The digit fold of `parseDigits` inverts the decimal rendering, with the
accumulator scaled by the rendered length. -/
theorem natToDec_foldl (n : Nat) :
    ∀ a : Nat,
      (natToDec n).foldl (fun acc c => acc * 10 + (digitValR 10 c).getD 0) a =
        a * 10 ^ (natToDec n).length + n := by
  induction n using Nat.strong_induction_on with
  | _ n ih =>
    intro a
    by_cases h10 : n < 10
    · rw [natToDec_eq_of_lt n h10]
      simp [digitValR10_digit (48 + n) (by omega) (by omega)]
    · rw [natToDec_eq_of_ge n (by omega)]
      rw [List.foldl_append]
      rw [ih (n / 10) (Nat.div_lt_self (by omega) (by omega)) a]
      have hm : n % 10 < 10 := Nat.mod_lt n (by omega)
      have hdig : digitCU (n % 10) = 48 + n % 10 := by
        simp [digitCU, if_pos hm]
      simp only [List.foldl_cons, List.foldl_nil, List.length_append, List.length_cons,
        List.length_nil, hdig]
      rw [digitValR10_digit (48 + n % 10) (by omega) (by omega)]
      simp only [Option.getD_some]
      have hpow : 10 ^ ((natToDec (n / 10)).length + (0 + 1)) =
          10 ^ (natToDec (n / 10)).length * 10 := by
        rw [Nat.zero_add, Nat.pow_succ]
      rw [hpow, ← Nat.mul_assoc]
      generalize a * (10 : Nat) ^ (natToDec (n / 10)).length = m
      omega

/-- Digit code units have a digit value under radix ten. -/
theorem digitValR10_isSome (c : Nat) (h1 : 48 ≤ c) (h2 : c ≤ 57) :
    (digitValR 10 c).isSome = true := by
  rw [digitValR10_digit c h1 h2]
  rfl

/-- parseDigits inverts the decimal rendering. -/
theorem parseDigits_natToDec (n : Nat) : parseDigits 10 (natToDec n) = some n := by
  have hall : ∀ c ∈ natToDec n, (fun c => (digitValR 10 c).isSome) c = true := by
    intro c hc
    obtain ⟨h1, h2⟩ := natToDec_mem n c hc
    exact digitValR10_isSome c h1 h2
  simp only [parseDigits, takeWhile_eq_self_of_all _ _ hall]
  rw [if_neg (by simp [List.isEmpty_iff, natToDec_ne_nil n])]
  rw [natToDec_foldl n 0]
  simp

/-- parseInt inverts the decimal rendering of the iteration count. -/
theorem parseIntJS_natToDec (n : Nat) : parseIntJS (natToDec n) = some (n : Int) := by
  by_cases hn : 0 < n
  · obtain ⟨c, cs, hcs, hc1, hc2⟩ := natToDec_head_pos n hn
    have hws : isWsCU c = false := isWsCU_digit_false c (by omega) (by omega)
    have hdrop : (natToDec n).dropWhile isWsCU = c :: cs := by
      rw [hcs, List.dropWhile_cons, hws]
      simp
    have hpu : parseUnsignedJS (c :: cs) = parseDigits 10 (c :: cs) := by
      cases cs with
      | nil => rfl
      | cons x r =>
        simp only [parseUnsignedJS]
        rw [if_neg]
        intro hcontra
        omega
    simp only [parseIntJS, hdrop]
    rw [if_neg (by omega), if_neg (by omega), hpu, ← hcs, parseDigits_natToDec n]
    rfl
  · have hn0 : n = 0 := by omega
    subst hn0
    rw [show natToDec 0 = [48] from natToDec_eq_of_lt 0 (by omega)]
    decide

/-! ## Helper lemmas: digest shape -/

/-- Word-to-byte conversion yields bytes. -/
theorem wordToBytes_mem_lt (w : Nat) : ∀ x ∈ wordToBytes w, x < 256 := by
  intro x hx
  simp only [wordToBytes, List.mem_cons, List.not_mem_nil, or_false] at hx
  rcases hx with rfl | rfl | rfl | rfl <;> exact Nat.mod_lt _ (by omega)

/-- A SHA-256 digest has 32 bytes. -/
theorem sha256_length (m : List Nat) : (sha256 m).length = 32 := by
  simp [sha256, wordToBytes]

/-- All entries of a SHA-256 digest are bytes. -/
theorem sha256_mem_lt (m : List Nat) : ∀ x ∈ sha256 m, x < 256 := by
  intro x hx
  simp only [sha256, List.mem_append] at hx
  rcases hx with ((((((hx | hx) | hx) | hx) | hx) | hx) | hx) | hx <;>
    exact wordToBytes_mem_lt _ x hx

/-- An HMAC-SHA-256 tag has 32 bytes. -/
theorem hmacSha256_length (key msg : List Nat) : (hmacSha256 key msg).length = 32 := by
  simp [hmacSha256, sha256_length]

/-- All entries of an HMAC-SHA-256 tag are bytes. -/
theorem hmacSha256_mem_lt (key msg : List Nat) : ∀ x ∈ hmacSha256 key msg, x < 256 := by
  simp only [hmacSha256]
  exact sha256_mem_lt _

/-- Pointwise xor of byte lists stays below 256. -/
theorem zipWith_xor_mem_lt (t : List Nat) :
    ∀ u : List Nat, (∀ x ∈ t, x < 256) → (∀ x ∈ u, x < 256) →
      ∀ x ∈ List.zipWith Nat.xor t u, x < 256 := by
  induction t with
  | nil => intro u _ _ x hx; simp at hx
  | cons a as ih =>
    intro u ht hu x hx
    cases u with
    | nil => simp at hx
    | cons b bs =>
      simp only [List.zipWith_cons_cons, List.mem_cons] at hx
      rcases hx with rfl | hx
      · have ha : a < 2 ^ 8 := ht a (by simp)
        have hb : b < 2 ^ 8 := hu b (by simp)
        exact Nat.xor_lt_two_pow ha hb
      · exact ih bs (fun y hy => ht y (by simp [hy])) (fun y hy => hu y (by simp [hy])) x hx

/-- The PBKDF2 xor-accumulation loop preserves the 32-byte shape. -/
theorem pbkdf2Loop_shape (pw : List Nat) :
    ∀ (k : Nat) (u t : List Nat), t.length = 32 → (∀ x ∈ t, x < 256) →
      (pbkdf2Loop pw k u t).length = 32 ∧ ∀ x ∈ pbkdf2Loop pw k u t, x < 256 := by
  intro k
  induction k with
  | zero => intro u t h1 h2; exact ⟨h1, h2⟩
  | succ k ih =>
    intro u t h1 h2
    simp only [pbkdf2Loop]
    apply ih
    · rw [List.length_zipWith, h1, hmacSha256_length]
      rfl
    · exact zipWith_xor_mem_lt t _ h2 (hmacSha256_mem_lt _ _)

/-- A PBKDF2-SHA-256 derived key has 32 bytes, all below 256. -/
theorem pbkdf2Sha256_shape (pw salt : List Nat) (c : Nat) :
    (pbkdf2Sha256 pw salt c).length = 32 ∧ ∀ x ∈ pbkdf2Sha256 pw salt c, x < 256 := by
  simp only [pbkdf2Sha256]
  exact pbkdf2Loop_shape pw (c - 1) _ _ (hmacSha256_length _ _) (hmacSha256_mem_lt _ _)

/-- The derived password hash is a 64-character string. -/
theorem hashPassword_length (p s : JSStr) (n : Nat) : (hashPassword p s n).length = 64 := by
  obtain ⟨h1, h2⟩ := pbkdf2Sha256_shape (textEncode p) (textEncode s) n
  simp only [hashPassword]
  rw [hexEncode_length _ h2, h1]

/-- The derived password hash consists of lowercase hex code units. -/
theorem hashPassword_mem_hex (p s : JSStr) (n : Nat) :
    ∀ c ∈ hashPassword p s n, isLowerHexCU c = true :=
  hexEncode_mem_hex _

/-- The derived password hash contains no delimiter code unit. -/
theorem hashPassword_ne36 (p s : JSStr) (n : Nat) : ∀ c ∈ hashPassword p s n, c ≠ 36 :=
  hexEncode_ne36 _

/-! ## Helper lemmas: record parsing and verification -/

/-- The algorithm tag is delimiter-free. -/
theorem pbkdf2Tag_ne36 : ∀ c ∈ pbkdf2Tag, c ≠ 36 := by
  decide

/-- Splitting a record template recovers the empty leading field and the
four data fields, whenever salt and digest are delimiter-free. -/
theorem splitOnDollar_mkRecord (n : Nat) (salt digest : JSStr)
    (hs : ∀ c ∈ salt, c ≠ 36) (hd : ∀ c ∈ digest, c ≠ 36) :
    splitOnDollar (mkRecord n salt digest) =
      [[], pbkdf2Tag, natToDec n, salt, digest] := by
  rw [mkRecord, splitOnDollar_cons36, splitOnDollar_seg _ _ pbkdf2Tag_ne36,
    splitOnDollar_seg _ _ (natToDec_ne36 n), splitOnDollar_seg _ _ hs,
    splitOnDollar_noDollar _ hd]

/-- Splitting a freshly created record: five fields, the first empty, then
the tag, the rendered default iteration count, the salt, the digest. -/
theorem splitOnDollar_createPasswordHash (p : JSStr) (randomBytes : List Nat) :
    splitOnDollar (createPasswordHash p randomBytes) =
      [[], pbkdf2Tag, natToDec 100000, hexEncode randomBytes,
        hashPassword p (hexEncode randomBytes) 100000] := by
  rw [createPasswordHash]
  exact splitOnDollar_mkRecord _ _ _ (hexEncode_ne36 randomBytes) (hashPassword_ne36 _ _ _)

/-- Verification of a well-formed record reduces to equality of the
re-derived hash with the stored digest. -/
theorem verifyPassword_mkRecord (p salt digest : JSStr) (n : Nat)
    (hs : ∀ c ∈ salt, c ≠ 36) (hd : ∀ c ∈ digest, c ≠ 36)
    (h1 : 0 < n) (h2 : n < 4294967296) :
    verifyPassword p (mkRecord n salt digest) = (hashPassword p salt n == digest) := by
  have hsplit := splitOnDollar_mkRecord n salt digest hs hd
  have hparse := parseIntJS_natToDec n
  have hE : hashPasswordE p salt (n : Int) = Except.ok (hashPassword p salt n) := by
    rw [hashPasswordE, if_neg, if_neg]
    · rw [Int.toNat_natCast]
    · simp only [Int.natCast_eq_zero]
      omega
    · rw [not_or]
      constructor
      · simp only [not_lt]
        exact Int.natCast_nonneg n
      · simp only [not_le]
        omega
  simp only [verifyPassword, verifyPasswordE, hsplit, hparse, if_pos rfl, hE]
  exact constantTimeCompare_eq_beq _ _

/-- Verification of a fresh record succeeds for any password with the same
text encoding as the enrolled one. -/
theorem verifyPassword_createPasswordHash_of_encEq (p q : JSStr) (randomBytes : List Nat)
    (henc : textEncode q = textEncode p) :
    verifyPassword q (createPasswordHash p randomBytes) = true := by
  rw [createPasswordHash]
  rw [verifyPassword_mkRecord q (generateSalt randomBytes) _ 100000
    (hexEncode_ne36 randomBytes) (hashPassword_ne36 _ _ _) (by omega) (by omega)]
  have hq : hashPassword q (generateSalt randomBytes) 100000 =
      hashPassword p (generateSalt randomBytes) 100000 := by
    rw [hashPassword, hashPassword, henc]
  rw [hq]
  exact beq_self_eq_true _

/-! ## Claim theorems -/

/-- C1 (amended): splitting the record produced by `createPasswordHash` on
the dollar delimiter always yields exactly five fields, not four: an empty
leading field (the record begins with the delimiter), then the algorithm
tag `pbkdf2`, the rendered iteration count 100000, the salt, and the
digest, in that fixed order. -/
theorem claim1_record_splits_five_fields (p : JSStr) (randomBytes : List Nat) :
    splitOnDollar (createPasswordHash p randomBytes) =
      [[], pbkdf2Tag, natToDec 100000, generateSalt randomBytes,
        hashPassword p (generateSalt randomBytes) 100000] :=
  splitOnDollar_createPasswordHash p randomBytes

/-- C1 (counterexample): for the password `Test123!@#` and a concrete
sixteen-byte salt draw, the stored record does not split into four fields
on the dollar delimiter (it splits into five). -/
theorem claim1_four_fields_refuted :
    (splitOnDollar (createPasswordHash [84, 101, 115, 116, 49, 50, 51, 33, 64, 35]
        [167, 3, 29, 88, 250, 7, 99, 140, 11, 42, 253, 0, 128, 77, 200, 5])).length ≠ 4 := by
  rw [splitOnDollar_createPasswordHash]
  simp

/-- C2: for every password and every salt draw, verifying the password
against its freshly created record succeeds. -/
theorem claim2_roundtrip (p : JSStr) (randomBytes : List Nat) :
    verifyPassword p (createPasswordHash p randomBytes) = true :=
  verifyPassword_createPasswordHash_of_encEq p p randomBytes rfl

/-- C3: for every password and every malformed stored record (wrong field
count, wrong algorithm tag, or an iterations field that does not parse to
an integer), verification returns false; the model is a total function, the
try/catch of the source converting every thrown error into false. -/
theorem claim3_malformed_returns_false (p r : JSStr) (h : malformedRecord r = true) :
    verifyPassword p r = false := by
  cases hsplit : splitOnDollar r with
  | nil => simp [verifyPassword, verifyPasswordE, hsplit]
  | cons p0 r1 =>
    cases r1 with
    | nil => simp [verifyPassword, verifyPasswordE, hsplit]
    | cons p1 r2 =>
      cases r2 with
      | nil => simp [verifyPassword, verifyPasswordE, hsplit]
      | cons p2 r3 =>
        cases r3 with
        | nil => simp [verifyPassword, verifyPasswordE, hsplit]
        | cons p3 r4 =>
          cases r4 with
          | nil => simp [verifyPassword, verifyPasswordE, hsplit]
          | cons p4 r5 =>
            cases r5 with
            | nil =>
              rw [malformedRecord, hsplit] at h
              simp only [Bool.or_eq_true, decide_eq_true_eq, Option.isNone_iff_eq_none] at h
              rcases h with h | h
              · simp [verifyPassword, verifyPasswordE, hsplit, h]
              · by_cases ht : p1 = pbkdf2Tag
                · simp [verifyPassword, verifyPasswordE, hsplit, ht, h]
                · simp [verifyPassword, verifyPasswordE, hsplit, ht]
            | cons p5 r6 => simp [verifyPassword, verifyPasswordE, hsplit]

/-- C3 witness: the literal stored string `not-a-valid-record` is malformed
and verification of the password `x` against it returns false. -/
theorem claim3_witness :
    malformedRecord
        [110, 111, 116, 45, 97, 45, 118, 97, 108, 105, 100, 45, 114, 101, 99, 111, 114, 100] =
      true ∧
    verifyPassword [120]
        [110, 111, 116, 45, 97, 45, 118, 97, 108, 105, 100, 45, 114, 101, 99, 111, 114, 100] =
      false :=
  ⟨by decide, claim3_malformed_returns_false _ _ (by decide)⟩

/-- C4 (amended): verifying P2 against a record created for P1 succeeds
exactly when the PBKDF2 digests of the two passwords under the record salt
and the default iteration count coincide; it is not false for every pair of
distinct passwords, because distinct code-unit sequences can share a UTF-8
encoding (unpaired surrogates are encoded like U+FFFD). -/
theorem claim4_verify_iff_digest_eq (p1 p2 : JSStr) (randomBytes : List Nat) :
    verifyPassword p2 (createPasswordHash p1 randomBytes) =
      (hashPassword p2 (generateSalt randomBytes) 100000 ==
        hashPassword p1 (generateSalt randomBytes) 100000) := by
  rw [createPasswordHash]
  exact verifyPassword_mkRecord p2 (generateSalt randomBytes) _ 100000
    (hexEncode_ne36 randomBytes) (hashPassword_ne36 _ _ _) (by omega) (by omega)

/-- C4 (counterexample): the password holding the single unpaired surrogate
code unit 0xD800 and the password holding the single code unit 0xFFFD are
distinct, yet the second verifies successfully against a record created for
the first, for a concrete sixteen-byte salt draw. -/
theorem claim4_counterexample :
    ([55296] : JSStr) ≠ [65533] ∧
    verifyPassword [65533]
        (createPasswordHash [55296] [0, 0, 0, 0, 0, 0, 0, 0, 0, 0, 0, 0, 0, 0, 0, 0]) = true :=
  ⟨by decide,
    verifyPassword_createPasswordHash_of_encEq [55296] [65533] _ (by decide)⟩

/-- C6: two salt draws that differ as byte lists produce different encoded
records for the same password, and the password verifies against both. -/
theorem claim6_salt_uniqueness (p : JSStr) (b1 b2 : List Nat) (hne : b1 ≠ b2)
    (h1 : ∀ x ∈ b1, x < 256) (h2 : ∀ x ∈ b2, x < 256) :
    createPasswordHash p b1 ≠ createPasswordHash p b2 ∧
    verifyPassword p (createPasswordHash p b1) = true ∧
    verifyPassword p (createPasswordHash p b2) = true := by
  refine ⟨?_, verifyPassword_createPasswordHash_of_encEq p p b1 rfl,
    verifyPassword_createPasswordHash_of_encEq p p b2 rfl⟩
  intro heq
  have hsp := congrArg splitOnDollar heq
  rw [splitOnDollar_createPasswordHash, splitOnDollar_createPasswordHash] at hsp
  simp only [List.cons.injEq] at hsp
  exact hne (hexEncode_inj b1 b2 h1 h2 hsp.2.2.2.1)

/-- C6 witness: two concrete sixteen-byte salt draws differing in the first
byte, for the password `a`. -/
theorem claim6_witness :
    (([0, 1, 2, 3, 4, 5, 6, 7, 8, 9, 10, 11, 12, 13, 14, 15] : List Nat) ≠
        [255, 1, 2, 3, 4, 5, 6, 7, 8, 9, 10, 11, 12, 13, 14, 15] ∧
      (∀ x ∈ ([0, 1, 2, 3, 4, 5, 6, 7, 8, 9, 10, 11, 12, 13, 14, 15] : List Nat), x < 256) ∧
      (∀ x ∈ ([255, 1, 2, 3, 4, 5, 6, 7, 8, 9, 10, 11, 12, 13, 14, 15] : List Nat), x < 256)) ∧
    (createPasswordHash [97] [0, 1, 2, 3, 4, 5, 6, 7, 8, 9, 10, 11, 12, 13, 14, 15] ≠
        createPasswordHash [97] [255, 1, 2, 3, 4, 5, 6, 7, 8, 9, 10, 11, 12, 13, 14, 15] ∧
      verifyPassword [97]
          (createPasswordHash [97] [0, 1, 2, 3, 4, 5, 6, 7, 8, 9, 10, 11, 12, 13, 14, 15]) =
        true ∧
      verifyPassword [97]
          (createPasswordHash [97] [255, 1, 2, 3, 4, 5, 6, 7, 8, 9, 10, 11, 12, 13, 14, 15]) =
        true) :=
  ⟨⟨by decide, by decide, by decide⟩,
    claim6_salt_uniqueness [97] _ _ (by decide) (by decide) (by decide)⟩

/-- C7: the derived hash is a pure function of password, salt and iteration
count; two invocations on the same three inputs coincide (the embedding
consumes no state, so determinism is definitional). -/
theorem claim7_determinism (p s : JSStr) (n : Nat) :
    hashPassword p s n = hashPassword p s n := rfl

/-- C8: for every password, every salt and every positive iteration count,
the derived hash is a string of exactly 64 lowercase hexadecimal code
units. -/
theorem claim8_digest_shape (p s : JSStr) (n : Nat) (hn : 0 < n) :
    (hashPassword p s n).length = 64 ∧ ∀ c ∈ hashPassword p s n, isLowerHexCU c = true :=
  ⟨hashPassword_length p s n, hashPassword_mem_hex p s n⟩

/-- C8 witness: password `a`, salt `b`, one iteration. -/
theorem claim8_witness :
    0 < 1 ∧
    ((hashPassword [97] [98] 1).length = 64 ∧
      ∀ c ∈ hashPassword [97] [98] 1, isLowerHexCU c = true) :=
  ⟨by decide, claim8_digest_shape [97] [98] 1 (by decide)⟩

/-- C9: a well-formed record carrying any in-range iteration count `n` and
the digest derived with `n` verifies successfully; verification re-derives
with the count embedded in the record, not with the global default. -/
theorem claim9_per_record_iterations (p saltStr : JSStr) (n : Nat)
    (hs : ∀ c ∈ saltStr, c ≠ 36) (h1 : 0 < n) (h2 : n < 4294967296) :
    verifyPassword p (mkRecord n saltStr (hashPassword p saltStr n)) = true := by
  rw [verifyPassword_mkRecord p saltStr _ n hs (hashPassword_ne36 _ _ _) h1 h2]
  exact beq_self_eq_true _

/-- C9 witness: password `p`, salt string `ab`, iteration count 1000
(differing from the default 100000). -/
theorem claim9_witness :
    ((∀ c ∈ ([97, 98] : JSStr), c ≠ 36) ∧ 0 < 1000 ∧ 1000 < 4294967296) ∧
    verifyPassword [112] (mkRecord 1000 [97, 98] (hashPassword [112] [97, 98] 1000)) = true :=
  ⟨⟨by decide, by decide, by decide⟩,
    claim9_per_record_iterations [112] [97, 98] 1000 (by decide) (by decide) (by decide)⟩

/-- C10: the comparison routine decides string equality (length mismatch
included), and verification of a well-formed record returns true exactly
when the re-derived hash equals the stored digest. -/
theorem claim10_compare_decides_verify (a b p saltStr digest : JSStr) (n : Nat)
    (hs : ∀ c ∈ saltStr, c ≠ 36) (hd : ∀ c ∈ digest, c ≠ 36)
    (h1 : 0 < n) (h2 : n < 4294967296) :
    constantTimeCompare a b = (a == b) ∧
    verifyPassword p (mkRecord n saltStr digest) = (hashPassword p saltStr n == digest) :=
  ⟨constantTimeCompare_eq_beq a b, verifyPassword_mkRecord p saltStr digest n hs hd h1 h2⟩

/-- C10 witness: concrete strings of differing length for the comparison
and a concrete well-formed record. -/
theorem claim10_witness :
    ((∀ c ∈ ([98] : JSStr), c ≠ 36) ∧ (∀ c ∈ ([99] : JSStr), c ≠ 36) ∧
      0 < 7 ∧ 7 < 4294967296) ∧
    (constantTimeCompare [1] [1, 2] = (([1] : JSStr) == [1, 2]) ∧
      verifyPassword [97] (mkRecord 7 [98] [99]) = (hashPassword [97] [98] 7 == [99])) :=
  ⟨⟨by decide, by decide, by decide, by decide⟩,
    claim10_compare_decides_verify [1] [1, 2] [97] [98] [99] 7
      (by decide) (by decide) (by decide) (by decide)⟩

end CredHash
